import Mathlib

/-!
Verification development for the firmware memory-map analysis and
write-safety engine of pc-nrfconnect-programmer.

The sparse memory-map data structure comes from the external nrf-intel-hex
library; its operations (contains, slice, flattenOverlaps/overlapMemoryMaps,
paginate) are modelled from the specification of the SparseMemoryMap /
MapAlgebra components.  The functions canWrite, write, updateFileBlRegion
and updateFileAppRegions are translated from src/actions/jprog.js and
src/lib/actions/fileActions.js.
-/

namespace Spec2Proof

/-- A block of a sparse memory map: a start address together with the
contiguous bytes stored from that address on.  Mirrors the `[address, bytes]`
entries of the nrf-intel-hex MemoryMap. -/
structure Block where
  startAddress : Nat
  bytes : List Nat
deriving DecidableEq, Repr

/-- Modelled from the spec: a SparseMemoryMap is an ordered collection of
blocks keyed by start address (§3).  We model it as a list of blocks; the
data-model invariant (strictly increasing, non-overlapping) is stated
separately as `MemMap.WFb`. -/
def MemMap := List Block
deriving instance DecidableEq, Repr for MemMap

instance : Membership Block MemMap := inferInstanceAs (Membership Block (List Block))
instance : EmptyCollection MemMap := ⟨([] : List Block)⟩

/-- The byte a single block holds at address `a`, if any. -/
def blockByte (b : Block) (a : Nat) : Option Nat :=
  if b.startAddress ≤ a then b.bytes[a - b.startAddress]? else none

/-- The byte a sparse memory map holds at address `a`: the byte of the first
block covering `a` (for well-formed maps the covering block is unique). -/
def MemMap.readByte (m : MemMap) (a : Nat) : Option Nat :=
  (m : List Block).findSome? (fun b => blockByte b a)

/-- Modelled from the spec: `contains(other)` returns true iff for every
byte present in `other`, the same address holds a byte in `self` with an
equal value (§4.1). -/
def MemMap.contains (self other : MemMap) : Bool :=
  (other : List Block).all fun b =>
    (List.range b.bytes.length).all fun i =>
      self.readByte (b.startAddress + i) == b.bytes[i]?

/-- `m` has value `v` at address `a`: some block of `m` carries the byte
`v` at `a`.  This is the "byte present in the map" notion of the spec. -/
def MemMap.HasByte (m : MemMap) (a v : Nat) : Prop :=
  ∃ b, b ∈ (m : List Block) ∧ ∃ i, b.bytes[i]? = some v ∧ a = b.startAddress + i

/-- The spec's data-model invariant on sparse memory maps, checked on
adjacent blocks: block starts strictly increase and blocks do not overlap
(`block[i].startAddress + block[i].bytes.length <= block[i+1].startAddress`).
Adjacent-pair form; `MemMap.wf_pairwise` lifts it to all pairs. -/
def MemMap.WFb : MemMap → Bool
  | [] => true
  | [_] => true
  | b1 :: b2 :: t =>
      decide (b1.startAddress + b1.bytes.length ≤ b2.startAddress) && MemMap.WFb (b2 :: t)

theorem MemMap.wf_pairwise (m : MemMap) (h : m.WFb = true) :
    (m : List Block).Pairwise (fun b1 b2 => b1.startAddress + b1.bytes.length ≤ b2.startAddress) := by
  induction m with
  | nil => exact List.Pairwise.nil
  | cons b t ih =>
      cases t with
      | nil => exact List.pairwise_singleton _ _
      | cons b2 t2 =>
          rw [MemMap.WFb, Bool.and_eq_true, decide_eq_true_eq] at h
          have htail := ih h.2
          refine List.Pairwise.cons ?_ htail
          intro c hc
          rcases List.mem_cons.mp hc with hhd | hmem
          · subst hhd; omega
          · have h2 := (List.pairwise_cons.mp htail).1 c hmem
            omega

theorem contains_iff (self other : MemMap) :
    self.contains other = true ↔
      ∀ a v, other.HasByte a v → self.readByte a = some v := by
  unfold MemMap.contains
  rw [List.all_eq_true]
  constructor
  · rintro h a v ⟨b, hb, i, hget, rfl⟩
    have hall := h b hb
    rw [List.all_eq_true] at hall
    have hi : i ∈ List.range b.bytes.length := by
      rw [List.mem_range]
      exact (List.getElem?_eq_some.mp hget).1
    have := hall i hi
    rw [beq_iff_eq] at this
    rw [this, hget]
  · intro h b hb
    rw [List.all_eq_true]
    intro i hi
    rw [List.mem_range] at hi
    have hv : b.bytes[i]? = some b.bytes[i] := List.getElem?_eq_getElem hi
    have := h (b.startAddress + i) b.bytes[i] ⟨b, hb, i, hv, rfl⟩
    rw [beq_iff_eq, this, hv]

/-- The portion of a block lying inside the window `[s, s + n)`, trimmed.
Helper for `MemMap.slice`. -/
def sliceBlock (s n : Nat) (b : Block) : List Block :=
  let lo := max b.startAddress s
  let hi := min (b.startAddress + b.bytes.length) (s + n)
  if lo < hi then [⟨lo, (b.bytes.drop (lo - b.startAddress)).take (hi - lo)⟩] else []

/-- Modelled from the spec: `slice(startAddress, length)` returns a new map
containing only the bytes that fall in `[startAddress, startAddress+length)`,
trimming boundary blocks; ranges with no data are simply absent (§4.1). -/
def MemMap.slice (m : MemMap) (s n : Nat) : MemMap :=
  (m : List Block).flatMap (sliceBlock s n)

/-- The parts of a block that lie outside the window `[lo, hi)`.  Helper for
`MemMap.setBlock` (existing data overlapped by a newly set block is split and
trimmed away). -/
def trimOutside (lo hi : Nat) (b : Block) : List Block :=
  (if b.startAddress < lo then [⟨b.startAddress, b.bytes.take (lo - b.startAddress)⟩] else [])
    ++
  (if hi < b.startAddress + b.bytes.length
    then [⟨max b.startAddress hi, b.bytes.drop (hi - b.startAddress)⟩] else [])

/-- Modelled from the spec: `set(startAddress, bytes)` inserts/overwrites a
block, splitting/trimming any existing blocks that would overlap the new one;
the new block always wins in place (§4.1). -/
def MemMap.setBlock (m : MemMap) (nb : Block) : MemMap :=
  ((m : List Block).flatMap (trimOutside nb.startAddress (nb.startAddress + nb.bytes.length)))
    ++ [nb]

/-- Modelled from the spec: the composition
`MemoryMap.flattenOverlaps(MemoryMap.overlapMemoryMaps(memMaps))` — a
deterministic last-writer-wins merge of the per-file maps, later entries in
the input sequence having higher priority (§4.2).  Realised by setting every
block of every map, in input order, into an initially empty map. -/
def flattenFiles (memMaps : List (String × MemMap)) : MemMap :=
  memMaps.foldl (fun acc fm => (fm.2 : List Block).foldl MemMap.setBlock acc) ([] : MemMap)

/-- One block split at page boundaries into page-bounded chunks; structural
recursion on a fuel that starts at the byte count (each chunk removes at
least one byte, so the fuel never runs out before the bytes do).  Helper for
`MemMap.paginate`. -/
def splitBlockGo (pageSize : Nat) : Nat → Nat → List Nat → List Block
  | 0, startAddress, bytes => [⟨startAddress, bytes⟩]
  | fuel + 1, startAddress, bytes =>
      let k := pageSize - startAddress % pageSize
      if bytes.length ≤ k then [⟨startAddress, bytes⟩]
      else ⟨startAddress, bytes.take k⟩ :: splitBlockGo pageSize fuel (startAddress + k) (bytes.drop k)

/-- One block split at page boundaries into page-bounded chunks. -/
def splitBlock (pageSize startAddress : Nat) (bytes : List Nat) : List Block :=
  if pageSize = 0 then [⟨startAddress, bytes⟩]
  else splitBlockGo pageSize bytes.length startAddress bytes

/-- Modelled from the spec: `paginate(map, pageSize)` re-buckets the map into
blocks aligned to `pageSize` boundaries; no implicit padding byte is invented
and pages are trimmed to actual data extents (§4.2, pagination round-trip
property of §8). -/
def MemMap.paginate (m : MemMap) (pageSize : Nat) : MemMap :=
  (m : List Block).flatMap (fun b => splitBlock pageSize b.startAddress b.bytes)

/-! ### Application state and the jprog write-safety functions

Translated from src/actions/jprog.js.  The state shape follows the reducers:
`file.memMaps` is the list of `[filePath, memMap]` pairs, `target` carries the
serial number, page size and the memory map read from the device, plus the
per-device metadata record. -/

/-- Device metadata record (§3): immutable per-session device description. -/
structure DeviceInfo where
  family : Nat
  configPageAddress : Nat
  configPageSize : Nat
  romSize : Int
  pageSize : Int
deriving DecidableEq, Repr

/-- The slice of the application state owned by the file reducer that the
write path reads: the loaded `[filePath, memMap]` pairs. -/
structure FileState where
  memMaps : List (String × MemMap)
deriving DecidableEq, Repr

/-- The slice of the application state describing the connected target. -/
structure TargetState where
  serialNumber : Option Nat
  pageSize : Nat
  memMap : MemMap
  deviceInfo : DeviceInfo
deriving DecidableEq, Repr

/-- The application state as read by `canWrite` and `write`. -/
structure AppState where
  file : FileState
  target : TargetState
deriving DecidableEq, Repr

/-- `const uicrAddr = 0x10001000;` (src/actions/jprog.js) — hard-coded UICR
base address. -/
def uicrAddr : Nat := 0x10001000

/-- `const uicrSize = 0x400;` (src/actions/jprog.js) — hard-coded UICR size. -/
def uicrSize : Nat := 0x400

/-- `new MemoryMap([[uicrAddr, (new Uint8Array(uicrSize)).fill(0xFF)]])` —
a single page of `0xFF` bytes at the UICR address. -/
def blankUicr : MemMap := [⟨uicrAddr, List.replicate uicrSize 0xFF⟩]

/-- Translated from `canWrite(appState)` in src/actions/jprog.js: the write
is allowed iff the target's UICR page is blank (all `0xFF`), or the UICR
slice of the flattened hex files is already contained in the target. -/
def canWrite (appState : AppState) : Bool :=
  let target := appState.target
  if target.memMap.contains blankUicr then
    true
  else
    let flattenedFiles := flattenFiles appState.file.memMaps
    let uicrUpdates := flattenedFiles.slice uicrAddr uicrSize
    if !(target.memMap.contains uicrUpdates) then false else true

/-- Translated from the payload construction inside `write()` in
src/actions/jprog.js: the flattened files are paginated to the target's page
size, and if the target's UICR is not blank the pages are sliced to
`[0, uicrAddr)` ("skipping UICR updates"). -/
def writePages (appState : AppState) : MemMap :=
  let pages := (flattenFiles appState.file.memMaps).paginate appState.target.pageSize
  if !(appState.target.memMap.contains blankUicr) then
    pages.slice 0 uicrAddr
  else
    pages

/-- Translated from `write()` in src/actions/jprog.js: the payload handed to
`writeHex`, or `none` when the function returns early (no device selected, or
`canWrite` vetoed the operation). -/
def write (appState : AppState) : Option MemMap :=
  if appState.target.serialNumber.isNone || appState.target.pageSize == 0 then
    none
  else if !(canWrite appState) then
    none
  else
    some (writePages appState)

/-! ### Write-safety theorems -/

theorem hasByte_blankUicr (a v : Nat) :
    blankUicr.HasByte a v ↔ (uicrAddr ≤ a ∧ a < uicrAddr + uicrSize ∧ v = 0xFF) := by
  unfold blankUicr MemMap.HasByte
  constructor
  · rintro ⟨b, hb, i, hget, rfl⟩
    rw [List.mem_singleton] at hb
    subst hb
    simp only [List.getElem?_replicate] at hget
    split at hget
    · rcases Option.some.inj hget with rfl
      refine ⟨Nat.le_add_right _ _, ?_, rfl⟩
      simp only [uicrSize] at *
      omega
    · exact absurd hget (by simp)
  · rintro ⟨h1, h2, rfl⟩
    refine ⟨⟨uicrAddr, List.replicate uicrSize 0xFF⟩, List.mem_singleton.mpr rfl,
      a - uicrAddr, ?_, show a = uicrAddr + (a - uicrAddr) by omega⟩
    simp only [List.getElem?_replicate]
    rw [if_pos (by omega)]

theorem canWrite_eq (s : AppState) :
    canWrite s =
      (s.target.memMap.contains blankUicr
        || s.target.memMap.contains
            ((flattenFiles s.file.memMaps).slice uicrAddr uicrSize)) := by
  unfold canWrite
  cases h1 : s.target.memMap.contains blankUicr with
  | true => simp [h1]
  | false =>
      simp only [h1, Bool.false_or, if_false]
      cases h2 : s.target.memMap.contains
          ((flattenFiles s.file.memMaps).slice uicrAddr uicrSize) <;> simp [h2]

/-- C1: `canWrite` returns true iff either (a) the target's configuration
page range `[0x10001000, 0x10001400)` reads as a full page of `0xFF` bytes,
or (b) the target image contains, with equal byte values at every present
address, the slice of the flattened file image over that same range; in
every other case it returns false. -/
theorem canWrite_config_page_iff (s : AppState) :
    canWrite s = true ↔
      ((∀ a, uicrAddr ≤ a → a < uicrAddr + uicrSize →
          s.target.memMap.readByte a = some 0xFF)
        ∨
       (∀ a v,
          MemMap.HasByte ((flattenFiles s.file.memMaps).slice uicrAddr uicrSize) a v →
            s.target.memMap.readByte a = some v)) := by
  rw [canWrite_eq, Bool.or_eq_true, contains_iff, contains_iff]
  constructor
  · rintro (hblank | hfiles)
    · left
      intro a h1 h2
      exact hblank a 0xFF (hasByte_blankUicr a 0xFF |>.mpr ⟨h1, h2, rfl⟩)
    · right
      exact hfiles
  · rintro (hblank | hfiles)
    · left
      intro a v hv
      obtain ⟨h1, h2, rfl⟩ := (hasByte_blankUicr a v).mp hv
      exact hblank a h1 h2
    · right
      exact hfiles

/-- Modelled from the spec: constructing a block with zero-length bytes is
rejected with a `MalformedRange` error (§4.1, §7); any other construction
succeeds. -/
def mkBlock (startAddress : Nat) (bytes : List Nat) : Except String Block :=
  if bytes.isEmpty then Except.error "MalformedRange" else Except.ok ⟨startAddress, bytes⟩

/-- `canWrite` with the single fallible step of its body (construction of the
blank-UICR comparison map) made explicit, so that totality is a statement
about the error-aware evaluation rather than about Lean functions being
total by construction. -/
def canWriteE (appState : AppState) : Except String Bool := do
  let target := appState.target
  let blankBlock ← mkBlock uicrAddr (List.replicate uicrSize 0xFF)
  if target.memMap.contains [blankBlock] then
    return true
  else
    let flattenedFiles := flattenFiles appState.file.memMaps
    let uicrUpdates := flattenedFiles.slice uicrAddr uicrSize
    if !(target.memMap.contains uicrUpdates) then return false else return true

/-- C7: `canWrite` is total and never throws — for every application state
(the target's memory map being possibly empty when it has not been read),
the error-aware evaluation resolves to the definite boolean `canWrite`
computes, never to an error. -/
theorem canWriteE_never_errors (s : AppState) :
    canWriteE s = Except.ok (canWrite s) := by
  have hne : (List.replicate uicrSize (0xFF : Nat)).isEmpty = false := by
    have : uicrSize ≠ 0 := by decide
    simp [List.isEmpty_iff, this]
  unfold canWriteE canWrite mkBlock blankUicr
  rw [hne]
  simp only [Bool.false_eq_true, if_false, bind, Except.bind]
  cases h1 : s.target.memMap.contains [⟨uicrAddr, List.replicate uicrSize 0xFF⟩] with
  | true => simp [h1, pure, Except.pure]
  | false =>
      simp only [h1, Bool.false_eq_true, if_false]
      cases h2 : s.target.memMap.contains
          ((flattenFiles s.file.memMaps).slice uicrAddr uicrSize) <;>
        simp [h2, pure, Except.pure]

/-- C8: `write` never transmits a payload when `canWrite` is false — the
operation returns without building or sending anything. -/
theorem write_blocked_when_canWrite_false (s : AppState)
    (h : canWrite s = false) : write s = none := by
  unfold write
  rw [h]
  simp

/-- Concrete state on which `canWrite` is false: the target's UICR byte is
`0x00` while the files want to write `0x01` there. -/
def stateConflict : AppState :=
  { file := { memMaps := [("conflid", [⟨uicrAddr, [0x01]⟩])] }
    target :=
      { serialNumber := some 1
        pageSize := 0x1000
        memMap := [⟨uicrAddr, [0x00]⟩]
        deviceInfo := ⟨1, 0x10001000, 0x400, 0x80000, 0x1000⟩ } }

set_option maxRecDepth 100000 in
theorem write_blocked_when_canWrite_false_witness :
    canWrite stateConflict = false ∧ write stateConflict = none :=
  ⟨by decide, write_blocked_when_canWrite_false stateConflict (by decide)⟩

/-- C9: the write-safety logic is independent of the device metadata record —
for any two application states that agree on everything except the
`deviceInfo` record (family, configuration-page address/size, ...), `canWrite`
returns the same verdict and `write` produces the same payload, because the
configuration-page address and size are hard-coded constants. -/
theorem canWrite_write_ignore_deviceInfo (s1 s2 : AppState)
    (hfile : s1.file = s2.file)
    (hserial : s1.target.serialNumber = s2.target.serialNumber)
    (hpage : s1.target.pageSize = s2.target.pageSize)
    (hmem : s1.target.memMap = s2.target.memMap) :
    canWrite s1 = canWrite s2 ∧ write s1 = write s2 := by
  have hmaps : s1.file.memMaps = s2.file.memMaps := by rw [hfile]
  have hc : canWrite s1 = canWrite s2 := by
    simp only [canWrite, hmaps, hmem]
  refine ⟨hc, ?_⟩
  simp only [write, writePages, hmaps, hmem, hserial, hpage, hc]

/-- Two states identical except for every field of the device metadata
record (different family, configuration page address and size, ROM and page
size). -/
def stateMetaA : AppState :=
  { file := { memMaps := [("app", [⟨0x0, [0x12, 0x34]⟩])] }
    target :=
      { serialNumber := some 42
        pageSize := 0x1000
        memMap := [⟨0x0, [0x12, 0x34]⟩]
        deviceInfo := ⟨1, 0x10001000, 0x400, 0x40000, 0x400⟩ } }

def stateMetaB : AppState :=
  { stateMetaA with
    target := { stateMetaA.target with deviceInfo := ⟨2, 0x20002000, 0x800, 0x80000, 0x1000⟩ } }

theorem canWrite_write_ignore_deviceInfo_witness :
    canWrite stateMetaA = canWrite stateMetaB ∧ write stateMetaA = write stateMetaB :=
  canWrite_write_ignore_deviceInfo stateMetaA stateMetaB rfl rfl rfl rfl

/-- For a map whose blocks are strictly increasing and non-overlapping, the
byte read at an address inside a member block is that block's byte. -/
theorem readByte_of_mem (m : MemMap)
    (hp : (m : List Block).Pairwise
      (fun b1 b2 => b1.startAddress + b1.bytes.length ≤ b2.startAddress))
    (b : Block) (hb : b ∈ (m : List Block)) (i : Nat) (hi : i < b.bytes.length) :
    m.readByte (b.startAddress + i) = b.bytes[i]? := by
  induction m with
  | nil => cases hb
  | cons c t ih =>
      rw [List.pairwise_cons] at hp
      rcases List.mem_cons.mp hb with rfl | hmem
      · show (List.findSome? _ (b :: t)) = _
        rw [List.findSome?_cons]
        have : blockByte b (b.startAddress + i) = b.bytes[i]? := by
          unfold blockByte
          rw [if_pos (Nat.le_add_right _ _)]
          congr 1
          omega
        rw [this, List.getElem?_eq_getElem hi]
      · have hcb : c.startAddress + c.bytes.length ≤ b.startAddress := hp.1 b hmem
        show (List.findSome? _ (c :: t)) = _
        rw [List.findSome?_cons]
        have hnone : blockByte c (b.startAddress + i) = none := by
          unfold blockByte
          split
          · exact List.getElem?_eq_none (by omega)
          · rfl
        rw [hnone]
        exact ih hp.2 hmem

/-- C10: over well-formed maps (the spec's data-model invariant: strictly
increasing, non-overlapping blocks), `contains` is reflexive, and every map
contains the empty map. -/
theorem contains_refl_and_empty (m : MemMap) (h : m.WFb = true) :
    m.contains m = true ∧ m.contains ({} : MemMap) = true := by
  refine ⟨?_, rfl⟩
  unfold MemMap.contains
  rw [List.all_eq_true]
  intro b hb
  rw [List.all_eq_true]
  intro i hi
  rw [List.mem_range] at hi
  rw [readByte_of_mem m (m.wf_pairwise h) b hb i hi]
  exact beq_self_eq_true _

/-- A concrete well-formed two-block map. -/
def mapTwoBlocks : MemMap := [⟨0, [1, 2]⟩, ⟨5, [3]⟩]

theorem contains_refl_and_empty_witness :
    mapTwoBlocks.contains mapTwoBlocks = true ∧ mapTwoBlocks.contains ({} : MemMap) = true :=
  contains_refl_and_empty mapTwoBlocks (by decide)

theorem findSome?_blockByte_singleton (c : Block) (a : Nat) :
    List.findSome? (fun b => blockByte b a) [c] = blockByte c a := by
  rw [List.findSome?_cons]
  cases blockByte c a <;> simp

theorem findSome?_blockByte_append (l1 l2 : List Block) (a : Nat) :
    List.findSome? (fun b => blockByte b a) (l1 ++ l2) =
      (List.findSome? (fun b => blockByte b a) l1).or
        (List.findSome? (fun b => blockByte b a) l2) := by
  induction l1 with
  | nil => simp
  | cons c t ih =>
      rw [List.cons_append, List.findSome?_cons, List.findSome?_cons]
      cases blockByte c a <;> simp [ih]

theorem findSome?_sliceBlock (s n : Nat) (b : Block) (a : Nat) :
    List.findSome? (fun c => blockByte c a) (sliceBlock s n b) =
      (if s ≤ a ∧ a < s + n then blockByte b a else none) := by
  obtain ⟨bs, bb⟩ := b
  simp only [sliceBlock]
  split
  · next hlh =>
      rw [findSome?_blockByte_singleton]
      simp only [blockByte, List.getElem?_take, List.getElem?_drop]
      by_cases hw : s ≤ a ∧ a < s + n
      · rw [if_pos hw]
        by_cases hbs : bs ≤ a
        · rw [if_pos hbs, if_pos (by simp at hlh ⊢; omega)]
          by_cases hhi : a < min (bs + bb.length) (s + n)
          · rw [if_pos (by simp at hlh ⊢; omega)]
            congr 1
            simp at hlh
            omega
          · rw [if_neg (by simp at hlh ⊢; omega)]
            exact (List.getElem?_eq_none (by simp at hlh hhi ⊢; omega)).symm
        · rw [if_neg hbs, if_neg (by simp at hlh ⊢; omega)]
      · rw [if_neg hw]
        by_cases hmax : max bs s ≤ a
        · rw [if_pos hmax, if_neg (by simp at hlh hmax ⊢; omega)]
        · rw [if_neg hmax]
  · next hlh =>
      rw [List.findSome?_nil]
      split
      · next hw =>
          simp only [blockByte]
          split
          · next hbs =>
              exact (List.getElem?_eq_none (by simp at hlh ⊢; omega)).symm
          · rfl
      · rfl

/-- Reading the slice `[s, s + n)` of a map gives the map's byte when the
address is inside the window and nothing outside it. -/
theorem readByte_slice (m : MemMap) (s n a : Nat) :
    (m.slice s n).readByte a =
      (if s ≤ a ∧ a < s + n then m.readByte a else none) := by
  induction m with
  | nil =>
      simp only [MemMap.slice, MemMap.readByte, List.flatMap_nil, List.findSome?_nil]
      split <;> rfl
  | cons b t ih =>
      simp only [MemMap.slice, MemMap.readByte] at ih ⊢
      rw [List.flatMap_cons, findSome?_blockByte_append, findSome?_sliceBlock, ih,
        List.findSome?_cons]
      split
      · cases blockByte b a <;> simp [Option.or]
      · simp

/-- State whose files carry a byte just above the configuration page
(`0x10001400`) and whose target UICR holds a non-`0xFF` byte; the files
define nothing inside `[0x10001000, 0x10001400)`, so `canWrite` is true. -/
def stateAboveUicr : AppState :=
  { file := { memMaps := [("above", [⟨0x10001400, [0xAB]⟩])] }
    target :=
      { serialNumber := some 1
        pageSize := 0x1000
        memMap := [⟨uicrAddr, [0x00]⟩]
        deviceInfo := ⟨1, 0x10001000, 0x400, 0x80000, 0x1000⟩ } }

set_option maxRecDepth 100000 in
/-- C2 counterexample: the claim says the payload excludes exactly
`[0x10001000, 0x10001400)` and still includes file data above the
configuration page.  Here `canWrite` is true and the target's page is not
blank, the paginated file data holds `0xAB` at `0x10001400`, yet the
produced payload holds nothing there: `write()` slices the pages to
`[0, 0x10001000)`, dropping everything at or above the UICR address. -/
theorem write_payload_drops_data_above_config_page :
    canWrite stateAboveUicr = true
  ∧ stateAboveUicr.target.memMap.contains blankUicr = false
  ∧ ((flattenFiles stateAboveUicr.file.memMaps).paginate
      stateAboveUicr.target.pageSize).readByte 0x10001400 = some 0xAB
  ∧ (writePages stateAboveUicr).readByte 0x10001400 = none := by
  refine ⟨by decide, by decide, by decide, by decide⟩

/-- C2 (amended): when the target's configuration page is not blank (and
`canWrite` passed because the files match the device there), the produced
payload is the paginated file data restricted to addresses strictly below
`0x10001000` — the whole range from the configuration-page address upward is
excluded, not merely `[0x10001000, 0x10001400)`; all paginated data below
the configuration page is included.  When the configuration page is blank,
the payload is the full paginated file data, configuration page included. -/
theorem writePages_excludes_from_config_page_up (s : AppState) :
    (s.target.memMap.contains blankUicr = false →
      ∀ a, (writePages s).readByte a =
        (if a < uicrAddr
          then ((flattenFiles s.file.memMaps).paginate s.target.pageSize).readByte a
          else none))
  ∧ (s.target.memMap.contains blankUicr = true →
      writePages s = (flattenFiles s.file.memMaps).paginate s.target.pageSize) := by
  constructor
  · intro h a
    unfold writePages
    rw [h]
    simp only [Bool.not_false, if_true]
    rw [readByte_slice]
    by_cases ha : a < uicrAddr
    · rw [if_pos ha, if_pos ⟨Nat.zero_le a, by omega⟩]
    · rw [if_neg ha, if_neg (by omega)]
  · intro h
    unfold writePages
    rw [h]
    simp

/-- The blank-UICR map contains itself (every in-range address reads as
`0xFF`). -/
theorem blankUicr_contains_self : MemMap.contains blankUicr blankUicr = true := by
  rw [contains_iff]
  intro a v hv
  obtain ⟨h1, h2, rfl⟩ := (hasByte_blankUicr a v).mp hv
  show MemMap.readByte blankUicr a = some 0xFF
  unfold MemMap.readByte blankUicr
  rw [List.findSome?_cons]
  have : blockByte ⟨uicrAddr, List.replicate uicrSize 0xFF⟩ a = some 0xFF := by
    unfold blockByte
    rw [if_pos h1]
    simp only [List.getElem?_replicate]
    rw [if_pos (by omega)]
  rw [this]

/-- State whose target UICR page is fully erased (all `0xFF`). -/
def stateBlankTarget : AppState :=
  { file := { memMaps := [("above", [⟨0x10001400, [0xAB]⟩])] }
    target :=
      { serialNumber := some 1
        pageSize := 0x1000
        memMap := blankUicr
        deviceInfo := ⟨1, 0x10001000, 0x400, 0x80000, 0x1000⟩ } }

set_option maxRecDepth 100000 in
theorem writePages_excludes_from_config_page_up_witness :

    ((writePages stateAboveUicr).readByte 0x10001400 =
      (if 0x10001400 < uicrAddr
        then ((flattenFiles stateAboveUicr.file.memMaps).paginate
               stateAboveUicr.target.pageSize).readByte 0x10001400
        else none))
  ∧ writePages stateBlankTarget =
      (flattenFiles stateBlankTarget.file.memMaps).paginate stateBlankTarget.target.pageSize :=
  ⟨(writePages_excludes_from_config_page_up stateAboveUicr).1 (by decide) 0x10001400,
   (writePages_excludes_from_config_page_up stateBlankTarget).2 blankUicr_contains_self⟩

/-! ### Region classification

Translated from src/lib/actions/fileActions.js.  Region lists are
Immutable.js Lists of Region records; we model them as Lean lists together
with the Immutable.js `indexOf` / `set` / `remove` index conventions
(negative indices count from the end).  Addresses and sizes are JS numbers,
modelled as integers (JS subtraction can go negative). -/

/-- Region labels (the RegionName constants of src/lib/util/regions). -/
inductive RegionName
  | NONE | APPLICATION | SOFTDEVICE | BOOTLOADER | MBR | UICR
deriving DecidableEq, Repr

/-- Modelled from the spec: the display color constants of
src/lib/util/regions, one per region kind; carried through the record
updates (`region.set('color', ...)`) but never branched on. -/
inductive RegionColor
  | NONE | APPLICATION | SOFTDEVICE | BOOTLOADER | MBR | UICR
deriving DecidableEq, Repr

/-- A classified region record (§3). -/
structure Region where
  name : RegionName
  startAddress : Int
  regionSize : Int
  color : RegionColor
deriving DecidableEq, Repr

/-- Immutable.js `List.indexOf`: index of the first entry equal to the
value, `-1` when absent. -/
def imIndexOf (l : List Region) (r : Region) : Int :=
  match l.findIdx? (fun x => x == r) with
  | some i => (i : Int)
  | none => -1

/-- Immutable.js `List.set`: replace the entry at the index; a negative
index counts from the end of the list. -/
def imSet (l : List Region) (i : Int) (v : Region) : List Region :=
  if 0 ≤ i then l.set i.toNat v else l.set ((l.length : Int) + i).toNat v

/-- Immutable.js `List.remove`: drop the entry at the index; a negative
index counts from the end of the list. -/
def imRemove (l : List Region) (i : Int) : List Region :=
  if 0 ≤ i then l.eraseIdx i.toNat else l.eraseIdx ((l.length : Int) + i).toNat

/-- The JS guard `(!end || end <= x)` applied to the optional accumulator of
the region scans: true when the accumulator is unset (`undefined`, or `0`,
both falsy in JS). -/
def jsLeOrUnset (acc : Option Int) (x : Int) : Bool :=
  match acc with
  | none => true
  | some e => e == 0 || e ≤ x

/-- The forEach accumulation pattern shared by `updateFileBlRegion` and
`updateFileAppRegions`: remember `r.startAddress + r.regionSize` of each
region satisfying `p` whose start lies at or beyond the previously
remembered end. -/
def scanChainEnd (p : Region → Bool) (l : List Region) : Option Int :=
  l.foldl
    (fun acc r =>
      if p r && jsLeOrUnset acc r.startAddress
        then some (r.startAddress + r.regionSize) else acc)
    none

/-- The forEach tracking of `appStartAddress` in `updateFileAppRegions`:
the start address of the last APPLICATION region. -/
def scanAppStart (l : List Region) : Option Int :=
  l.foldl
    (fun acc r => if r.name == RegionName.APPLICATION then some r.startAddress else acc)
    none

/-- The forEach removal pattern of both merge steps: iterate the original
list and, for every entry satisfying `p`, remove from the accumulated list
the first entry equal to it. -/
def removeAllWhere (p : Region → Bool) (l : List Region) : List Region :=
  l.foldl (fun cur r => if p r then imRemove cur (imIndexOf cur r) else cur) l

/-- `Math.ceil(a / b)` for integer `a` and positive `b`. -/
def jsCeilDiv (a b : Int) : Int := (a + b - 1).ediv b

/-- `const softDeviceMagicStart = 0x1000;` (src/lib/actions/fileActions.js). -/
def softDeviceMagicStart : Int := 0x1000

/-- Translated from `updateFileBlRegion` (src/lib/actions/fileActions.js,
lines 205-238): when a Bootloader region exists and some NONE region lies
strictly after its start and ends below the ROM size, all NONE regions are
removed and the Bootloader's size is extended to the last chained gap
end. -/
def updateFileBlRegion (fileRegions : List Region) (romSize : Int) : List Region :=
  match fileRegions.find? (fun r => r.name == RegionName.BOOTLOADER) with
  | none => fileRegions
  | some blRegion =>
      let blStartAddress := blRegion.startAddress
      let blEndAddress? := scanChainEnd
        (fun r =>
          r.name == RegionName.NONE &&
          r.startAddress > blRegion.startAddress &&
          r.startAddress + r.regionSize < romSize)
        fileRegions
      match blEndAddress? with
      | some blEndAddress =>
          let removed := removeAllWhere (fun r => r.name == RegionName.NONE) fileRegions
          imSet removed (imIndexOf removed blRegion)
            { blRegion with regionSize := blEndAddress - blStartAddress }
      | none => fileRegions

/-- Translated from `updateFileAppRegions` (src/lib/actions/fileActions.js,
lines 131-145): when the file has no SoftDevice region but the target does,
relabel as APPLICATION the region starting at the SoftDevice end rounded up
to the next page boundary, or one page further. -/
def relabelAppAfterSoftDevice (fileRegions targetRegions : List Region)
    (pageSize : Int) : List Region :=
  let fileSoftDeviceRegion := fileRegions.find? (fun r => r.name == RegionName.SOFTDEVICE)
  let targetSoftDeviceRegion := targetRegions.find? (fun r => r.name == RegionName.SOFTDEVICE)
  match fileSoftDeviceRegion, targetSoftDeviceRegion with
  | none, some sd =>
      let softDeviceEnd := sd.startAddress + sd.regionSize
      let appRegion? :=
        (fileRegions.find? (fun r =>
          r.startAddress == jsCeilDiv softDeviceEnd pageSize * pageSize)).or
        (fileRegions.find? (fun r =>
          r.startAddress == (jsCeilDiv softDeviceEnd pageSize + 1) * pageSize))
      match appRegion? with
      | some appRegion =>
          imSet fileRegions (imIndexOf fileRegions appRegion)
            { appRegion with name := RegionName.APPLICATION, color := RegionColor.APPLICATION }
      | none => fileRegions
  | _, _ => fileRegions

/-- Translated from `updateFileAppRegions` (src/lib/actions/fileActions.js,
lines 147-157): when neither the file nor the target has a SoftDevice
region, the first APPLICATION region is downgraded to NONE unless it starts
exactly at `softDeviceMagicStart`. -/
def downgradeAppWithoutSoftDevice (fileRegions targetRegions : List Region) : List Region :=
  let fileSoftDeviceRegion := fileRegions.find? (fun r => r.name == RegionName.SOFTDEVICE)
  let targetSoftDeviceRegion := targetRegions.find? (fun r => r.name == RegionName.SOFTDEVICE)
  match fileSoftDeviceRegion, targetSoftDeviceRegion with
  | none, none =>
      match fileRegions.find? (fun r => r.name == RegionName.APPLICATION) with
      | some appRegion =>
          if appRegion.startAddress != softDeviceMagicStart then
            imSet fileRegions (imIndexOf fileRegions appRegion)
              { appRegion with name := RegionName.NONE, color := RegionColor.NONE }
          else fileRegions
      | none => fileRegions
  | _, _ => fileRegions

/-- Translated from `updateFileAppRegions` (src/lib/actions/fileActions.js,
lines 159-199): scan appStartAddress / appEndAddress, then, when a target
Bootloader region exists and both are set, remove the NONE regions below
the Bootloader start and resize the first APPLICATION region to
`appEndAddress - appStartAddress`. -/
def mergeAppRegions (fileRegions targetRegions : List Region) : List Region :=
  let targetBootloaderRegion := targetRegions.find? (fun r => r.name == RegionName.BOOTLOADER)
  let appStartAddress? := scanAppStart fileRegions
  let appEndAddress? := scanChainEnd
    (fun r =>
      match targetBootloaderRegion with
      | some bl => r.name == RegionName.NONE && r.startAddress < bl.startAddress
      | none => false)
    fileRegions
  match targetBootloaderRegion, appStartAddress?, appEndAddress? with
  | some bl, some appStartAddress, some appEndAddress =>
      let removed := removeAllWhere
        (fun r => r.name == RegionName.NONE && r.startAddress < bl.startAddress)
        fileRegions
      match removed.find? (fun r => r.name == RegionName.APPLICATION) with
      | some appRegion =>
          imSet removed (imIndexOf removed appRegion)
            { appRegion with
                regionSize := appEndAddress - appStartAddress
                color := RegionColor.APPLICATION }
      | none => removed
  | _, _, _ => fileRegions

/-- Translated from `updateFileAppRegions` (src/lib/actions/fileActions.js,
lines 108-201): the three successive region rewrites applied to the file
region list. -/
def updateFileAppRegions (fileRegions targetRegions : List Region)
    (pageSize : Int) : List Region :=
  mergeAppRegions
    (downgradeAppWithoutSoftDevice
      (relabelAppAfterSoftDevice fileRegions targetRegions pageSize) targetRegions)
    targetRegions

/-! ### List bookkeeping lemmas for the Immutable.js operations -/

section ListLemmas

variable {α : Type} [DecidableEq α]

theorem findIdx?_beq_of_mem (l : List α) (a : α) (h : a ∈ l) :
    ∃ i, l.findIdx? (fun x => x == a) = some i := by
  induction l with
  | nil => cases h
  | cons x t ih =>
      rw [List.findIdx?_cons]
      by_cases hx : x = a
      · exact ⟨0, by rw [if_pos (by simp [hx])]⟩
      · have hmem : a ∈ t := by
          rcases List.mem_cons.mp h with rfl | hm
          · exact absurd rfl hx
          · exact hm
        obtain ⟨i, hi⟩ := ih hmem
        refine ⟨i + 1, ?_⟩
        rw [if_neg (by simp [hx]), List.findIdx?_succ, hi]
        rfl

theorem eraseIdx_findIdx?_beq (l : List α) (a : α) :
    ∀ i, l.findIdx? (fun x => x == a) = some i → l.eraseIdx i = l.erase a := by
  induction l with
  | nil => intro i h; simp [List.findIdx?] at h
  | cons x t ih =>
      intro i h
      rw [List.findIdx?_cons] at h
      by_cases hx : (x == a) = true
      · rw [if_pos hx] at h
        cases h
        rw [List.eraseIdx_cons_zero, List.erase_cons, if_pos hx]
      · rw [if_neg hx, List.findIdx?_succ] at h
        cases hj : t.findIdx? (fun x => x == a) with
        | none => rw [hj] at h; simp at h
        | some j =>
            rw [hj] at h
            simp only [Option.map_some'] at h
            cases h
            rw [List.eraseIdx_cons_succ, List.erase_cons, if_neg hx, ih j hj]

theorem find?_beq_findIdx?_eq (p : α → Bool) (l : List α) (a : α)
    (h : l.find? p = some a) :
    l.findIdx? (fun x => x == a) = l.findIdx? p := by
  induction l with
  | nil => simp at h
  | cons x t ih =>
      rw [List.findIdx?_cons, List.findIdx?_cons]
      by_cases hp : p x = true
      · simp only [List.find?_cons, hp] at h
        cases h
        simp [hp]
      · have hp' : p x = false := by simpa using hp
        simp only [List.find?_cons, hp'] at h
        have hxa : (x == a) = false := by
          rw [beq_eq_false_iff_ne]
          rintro rfl
          exact hp (List.find?_some h)
        simp only [hxa, hp', Bool.false_eq_true, if_false, List.findIdx?_succ, ih h]

omit [DecidableEq α] in
theorem find?_filter_of_imp (p q : α → Bool) (l : List α)
    (himp : ∀ x, p x = true → q x = true) :
    (l.filter q).find? p = l.find? p := by
  induction l with
  | nil => rfl
  | cons x t ih =>
      rw [List.filter_cons]
      by_cases hq : q x = true
      · rw [if_pos hq]
        simp only [List.find?_cons]
        cases hp : p x
        · simp only [hp, ih]
        · simp only [hp]
      · have hp : p x = false := by
          cases hpx : p x
          · rfl
          · exact absurd (himp x hpx) hq
        rw [if_neg hq]
        simp only [List.find?_cons, hp, ih]

theorem filter_not_erase (p : α → Bool) (r : α) (hp : p r = true) (l : List α) :
    (l.erase r).filter (fun x => !p x) = l.filter (fun x => !p x) := by
  induction l with
  | nil => rfl
  | cons x t ih =>
      rw [List.erase_cons]
      by_cases hx : (x == r) = true
      · rw [if_pos hx, List.filter_cons,
          if_neg (by simp [eq_of_beq hx, hp])]
      · rw [if_neg hx, List.filter_cons, List.filter_cons]
        cases hpx : (!p x) <;> simp [hpx, ih]

theorem filter_erase_comm (p : α → Bool) (r : α) (hp : p r = true) (l : List α) :
    (l.erase r).filter p = (l.filter p).erase r := by
  induction l with
  | nil => rfl
  | cons x t ih =>
      rw [List.erase_cons]
      by_cases hx : (x == r) = true
      · rw [if_pos hx, List.filter_cons, if_pos (eq_of_beq hx ▸ hp), List.erase_cons,
          if_pos hx]
      · rw [if_neg hx, List.filter_cons, List.filter_cons]
        by_cases hpx : p x = true
        · rw [if_pos hpx, if_pos hpx, List.erase_cons, if_neg hx, ih]
        · rw [if_neg hpx, if_neg hpx, ih]

end ListLemmas

theorem filter_not_of_filter_eq_nil {α : Type} (p : α → Bool) (l : List α)
    (h : l.filter p = []) : l.filter (fun x => !p x) = l := by
  rw [List.filter_eq_self]
  intro a ha
  have := List.filter_eq_nil_iff.mp h a ha
  simp [this]

theorem imIndexOf_eq_of_findIdx? (l : List Region) (r : Region) (i : Nat)
    (h : l.findIdx? (fun x => x == r) = some i) : imIndexOf l r = (i : Int) := by
  unfold imIndexOf
  rw [h]

theorem imSet_ofNat (l : List Region) (i : Nat) (v : Region) :
    imSet l (i : Int) v = l.set i v := by
  unfold imSet
  rw [if_pos (by omega)]
  simp

theorem imRemove_ofNat (l : List Region) (i : Nat) :
    imRemove l (i : Int) = l.eraseIdx i := by
  unfold imRemove
  rw [if_pos (by omega)]
  simp

theorem imRemove_imIndexOf_eq_erase (l : List Region) (r : Region) (h : r ∈ l) :
    imRemove l (imIndexOf l r) = l.erase r := by
  obtain ⟨i, hi⟩ := findIdx?_beq_of_mem l r h
  rw [imIndexOf_eq_of_findIdx? l r i hi, imRemove_ofNat, eraseIdx_findIdx?_beq l r i hi]

theorem removeAllWhere_aux (p : Region → Bool) :
    ∀ (xs acc : List Region), (xs.filter p).Perm (acc.filter p) →
      xs.foldl (fun cur r => if p r then imRemove cur (imIndexOf cur r) else cur) acc
        = acc.filter (fun x => !p x) := by
  intro xs
  induction xs with
  | nil =>
      intro acc h
      have : acc.filter p = [] := (h.symm).eq_nil
      rw [List.foldl_nil, (filter_not_of_filter_eq_nil p acc this)]
  | cons r t ih =>
      intro acc h
      rw [List.foldl_cons]
      by_cases hp : p r = true
      · have hhead : (r :: t).filter p = r :: t.filter p := by
          rw [List.filter_cons, if_pos hp]
        rw [hhead] at h
        have hmem : r ∈ acc := by
          have hin : r ∈ acc.filter p := h.mem_iff.mp (List.mem_cons_self r _)
          exact (List.mem_filter.mp hin).1
        rw [if_pos hp, imRemove_imIndexOf_eq_erase acc r hmem]
        have hperm : (t.filter p).Perm ((acc.erase r).filter p) := by
          rw [filter_erase_comm p r hp]
          exact (List.cons_perm_iff_perm_erase.mp h).2
        rw [ih (acc.erase r) hperm, filter_not_erase p r hp]
      · rw [if_neg hp]
        apply ih acc
        rw [List.filter_cons, if_neg hp] at h
        exact h

theorem removeAllWhere_eq_filter (p : Region → Bool) (l : List Region) :
    removeAllWhere p l = l.filter (fun x => !p x) :=
  removeAllWhere_aux p l l (List.Perm.refl _)

/-- A fold that overwrites its accumulator at every element satisfying `p`
ends at the last such element. -/
theorem scanLast_aux (p : Region → Bool) (f : Region → Int) :
    ∀ (l : List Region) (acc : Option Int),
      l.foldl (fun acc r => if p r then some (f r) else acc) acc =
        (match (l.filter p).getLast? with
          | some x => some (f x)
          | none => acc) := by
  intro l
  induction l with
  | nil => intro acc; rfl
  | cons r t ih =>
      intro acc
      rw [List.foldl_cons, List.filter_cons]
      by_cases hp : p r = true
      · rw [if_pos hp, if_pos hp, ih]
        cases hft : t.filter p with
        | nil => rfl
        | cons y ys =>
            rw [List.getLast?_cons_cons]
            cases hz : (y :: ys).getLast? with
            | none => simp at hz
            | some z => rfl
      · rw [if_neg hp, if_neg hp, ih]

/-- `scanAppStart` remembers the start address of the last APPLICATION
region. -/
theorem scanAppStart_eq (l : List Region) :
    scanAppStart l =
      (match (l.filter (fun r => r.name == RegionName.APPLICATION)).getLast? with
        | some x => some x.startAddress
        | none => none) := by
  unfold scanAppStart
  exact scanLast_aux (fun r => r.name == RegionName.APPLICATION)
    (fun r => r.startAddress) l none

/-- Over a sorted, non-overlapping region list, the chained-gap scan reaches
the last region satisfying `p`: the JS guard `(!end || end <= r.start)` is
satisfied at every step, so the fold degenerates to "last match". -/
theorem scanChainEnd_sorted_aux (p : Region → Bool) :
    ∀ (l : List Region) (acc : Option Int),
      l.Pairwise (fun a b => a.startAddress + a.regionSize ≤ b.startAddress) →
      (∀ r ∈ l, p r = true → jsLeOrUnset acc r.startAddress = true) →
      l.foldl
        (fun acc r =>
          if p r && jsLeOrUnset acc r.startAddress
            then some (r.startAddress + r.regionSize) else acc)
        acc =
        (match (l.filter p).getLast? with
          | some g => some (g.startAddress + g.regionSize)
          | none => acc) := by
  intro l
  induction l with
  | nil => intro acc _ _; rfl
  | cons r t ih =>
      intro acc hsort hinv
      rw [List.pairwise_cons] at hsort
      rw [List.foldl_cons, List.filter_cons]
      by_cases hp : p r = true
      · have hcond : (p r && jsLeOrUnset acc r.startAddress) = true := by
          rw [hp, hinv r (List.mem_cons_self r t) hp]
          rfl
        rw [if_pos hp, hcond]
        simp only [if_true]
        have hinvt : ∀ r2 ∈ t, p r2 = true →
            jsLeOrUnset (some (r.startAddress + r.regionSize)) r2.startAddress = true := by
          intro r2 hr2 _
          have hle := hsort.1 r2 hr2
          simp [jsLeOrUnset, hle]
        rw [ih (some (r.startAddress + r.regionSize)) hsort.2 hinvt]
        cases hft : t.filter p with
        | nil => rfl
        | cons y ys =>
            rw [List.getLast?_cons_cons]
            cases hz : (y :: ys).getLast? with
            | none => simp at hz
            | some z => rfl
      · have hcond : (p r && jsLeOrUnset acc r.startAddress) = false := by
          simp [hp]
        rw [if_neg hp, hcond]
        simp only [Bool.false_eq_true, if_false]
        exact ih acc hsort.2 (fun r2 hr2 hp2 => hinv r2 (List.mem_cons_of_mem r hr2) hp2)

/-- `scanChainEnd` on a sorted, non-overlapping region list yields the end
address of the last region satisfying `p`. -/
theorem scanChainEnd_sorted (p : Region → Bool) (l : List Region)
    (hsort : l.Pairwise (fun a b => a.startAddress + a.regionSize ≤ b.startAddress)) :
    scanChainEnd p l =
      (match (l.filter p).getLast? with
        | some g => some (g.startAddress + g.regionSize)
        | none => none) := by
  unfold scanChainEnd
  exact scanChainEnd_sorted_aux p l none hsort (fun r _ _ => rfl)

/-! ### C3: bootloader region coalescing -/

/-- Region list with a NONE region below the Bootloader start and a gap
after it. -/
def blGapRegions : List Region :=
  [ ⟨RegionName.NONE, 0x100, 0x100, RegionColor.NONE⟩,
    ⟨RegionName.BOOTLOADER, 0x70000, 0x1000, RegionColor.BOOTLOADER⟩,
    ⟨RegionName.NONE, 0x71000, 0x1000, RegionColor.NONE⟩ ]

/-- C3 counterexample: the claim says only the NONE regions lying strictly
between the Bootloader's start and the ROM size are removed.  Here the NONE
region at `0x100` lies below the Bootloader's start (`0x70000`), yet the
removal loop of `updateFileBlRegion` drops every NONE region, so it
disappears from the output as well. -/
theorem updateFileBlRegion_removes_unrelated_none :
    (blGapRegions.any (fun r => r.name == RegionName.NONE && r.startAddress == 0x100)) = true
  ∧ ((updateFileBlRegion blGapRegions 0x80000).any (fun r => r.startAddress == 0x100)) = false := by
  constructor
  · decide
  · decide

/-- C3 (amended): when a Bootloader region is identified and at least one
NONE region lies strictly after its start with its end below the ROM size,
every NONE region in the list is removed (not only those between the
Bootloader's start and the ROM size), and the Bootloader's size becomes the
end address of the last such gap minus the Bootloader's original start. -/
theorem updateFileBlRegion_coalesces (l : List Region) (romSize : Int) (bl g : Region)
    (hsort : l.Pairwise (fun a b => a.startAddress + a.regionSize ≤ b.startAddress))
    (hbl : l.find? (fun r => r.name == RegionName.BOOTLOADER) = some bl)
    (hg : (l.filter (fun r =>
        r.name == RegionName.NONE &&
        r.startAddress > bl.startAddress &&
        r.startAddress + r.regionSize < romSize)).getLast? = some g) :
    ∃ i, ((l.filter (fun r => !(r.name == RegionName.NONE))).findIdx?
            (fun r => r.name == RegionName.BOOTLOADER) = some i)
      ∧ updateFileBlRegion l romSize =
          (l.filter (fun r => !(r.name == RegionName.NONE))).set i
            { bl with regionSize := g.startAddress + g.regionSize - bl.startAddress } := by
  have hscan : scanChainEnd (fun r =>
      r.name == RegionName.NONE &&
      r.startAddress > bl.startAddress &&
      r.startAddress + r.regionSize < romSize) l =
      some (g.startAddress + g.regionSize) := by
    rw [scanChainEnd_sorted _ l hsort, hg]
  have hfind : (l.filter (fun r => !(r.name == RegionName.NONE))).find?
      (fun r => r.name == RegionName.BOOTLOADER) = some bl := by
    rw [find?_filter_of_imp _ _ l ?_]
    · exact hbl
    · intro x hx
      simp [eq_of_beq hx]
  obtain ⟨i, hIdxBeq⟩ :=
    findIdx?_beq_of_mem _ bl (List.mem_of_find?_eq_some hfind)
  have hIdxP : (l.filter (fun r => !(r.name == RegionName.NONE))).findIdx?
      (fun r => r.name == RegionName.BOOTLOADER) = some i := by
    rw [← find?_beq_findIdx?_eq _ _ bl hfind]
    exact hIdxBeq
  refine ⟨i, hIdxP, ?_⟩
  unfold updateFileBlRegion
  simp only [hbl, hscan, removeAllWhere_eq_filter]
  rw [imIndexOf_eq_of_findIdx? _ bl i hIdxBeq, imSet_ofNat]

/-- Sorted region list for the C3 witness. -/
def blWitnessRegions : List Region :=
  [ ⟨RegionName.BOOTLOADER, 0x70000, 0x1000, RegionColor.BOOTLOADER⟩,
    ⟨RegionName.NONE, 0x71000, 0x1000, RegionColor.NONE⟩ ]

theorem updateFileBlRegion_coalesces_witness :
    ∃ i, ((blWitnessRegions.filter (fun r => !(r.name == RegionName.NONE))).findIdx?
            (fun r => r.name == RegionName.BOOTLOADER) = some i)
      ∧ updateFileBlRegion blWitnessRegions 0x80000 =
          (blWitnessRegions.filter (fun r => !(r.name == RegionName.NONE))).set i
            { name := RegionName.BOOTLOADER, startAddress := 0x70000,
              regionSize := 0x72000 - 0x70000, color := RegionColor.BOOTLOADER } :=
  updateFileBlRegion_coalesces blWitnessRegions 0x80000
    ⟨RegionName.BOOTLOADER, 0x70000, 0x1000, RegionColor.BOOTLOADER⟩
    ⟨RegionName.NONE, 0x71000, 0x1000, RegionColor.NONE⟩
    (by decide) (by decide) (by decide)

/-! ### C4: application inference after a SoftDevice -/

/-- File region list that carries its own SoftDevice region (ending at
`0x25000`) followed by a data block at `0x26000`, and no APPLICATION tag. -/
def fileSdRegions : List Region :=
  [ ⟨RegionName.SOFTDEVICE, 0x1000, 0x24000, RegionColor.SOFTDEVICE⟩,
    ⟨RegionName.NONE, 0x26000, 0x1000, RegionColor.NONE⟩ ]

/-- C4 counterexample: the claim says a SoftDevice identified in the file
image triggers the APPLICATION relabel of the region at the next page
boundary (here `0x26000`, one page past the SoftDevice end `0x25000`).  The
code only relabels when the file has no SoftDevice region and the target
has one, so with an empty target region list nothing is relabeled. -/
theorem relabel_not_applied_for_file_softdevice :
    (fileSdRegions.any (fun r => r.name == RegionName.APPLICATION)) = false
  ∧ (fileSdRegions.any (fun r => r.name == RegionName.SOFTDEVICE)) = true
  ∧ (fileSdRegions.any (fun r => r.startAddress == 0x26000)) = true
  ∧ updateFileAppRegions fileSdRegions [] 0x1000 = fileSdRegions
  ∧ ((updateFileAppRegions fileSdRegions [] 0x1000).any
      (fun r => r.name == RegionName.APPLICATION)) = false := by
  exact ⟨by decide, by decide, by decide, by decide, by decide⟩

/-- C4 (amended): for a file region list with no APPLICATION tag, the
relabel happens only when the file list has no SoftDevice region and the
target's classified regions do have one; then the first region starting at
the target SoftDevice's end rounded up to the next page boundary (or at the
boundary one page further when the first has no match) is relabeled
APPLICATION. -/
theorem relabelApp_target_softdevice (fileRegions targetRegions : List Region)
    (pageSize : Int) (sd app : Region)
    (_hnoApp : fileRegions.find? (fun r => r.name == RegionName.APPLICATION) = none)
    (hfsd : fileRegions.find? (fun r => r.name == RegionName.SOFTDEVICE) = none)
    (htsd : targetRegions.find? (fun r => r.name == RegionName.SOFTDEVICE) = some sd)
    (happ : ((fileRegions.find? (fun r =>
          r.startAddress == jsCeilDiv (sd.startAddress + sd.regionSize) pageSize * pageSize)).or
        (fileRegions.find? (fun r =>
          r.startAddress == (jsCeilDiv (sd.startAddress + sd.regionSize) pageSize + 1) * pageSize)))
        = some app) :
    ∃ i, fileRegions.findIdx? (fun x => x == app) = some i ∧
      relabelAppAfterSoftDevice fileRegions targetRegions pageSize =
        fileRegions.set i
          { app with name := RegionName.APPLICATION, color := RegionColor.APPLICATION } := by
  have hmem : app ∈ fileRegions := by
    rcases hor : fileRegions.find? (fun r =>
        r.startAddress == jsCeilDiv (sd.startAddress + sd.regionSize) pageSize * pageSize) with
      _ | b
    · rw [hor] at happ
      simp only [Option.or] at happ
      exact List.mem_of_find?_eq_some happ
    · rw [hor] at happ
      simp only [Option.or] at happ
      cases happ
      exact List.mem_of_find?_eq_some hor
  obtain ⟨i, hIdx⟩ := findIdx?_beq_of_mem fileRegions app hmem
  refine ⟨i, hIdx, ?_⟩
  unfold relabelAppAfterSoftDevice
  simp only [hfsd, htsd, happ]
  rw [imIndexOf_eq_of_findIdx? _ app i hIdx, imSet_ofNat]

/-- File region list for the C4 witness: a single data block at `0x26000`. -/
def relabelWitnessFile : List Region :=
  [⟨RegionName.NONE, 0x26000, 0x1000, RegionColor.NONE⟩]

/-- Target region list for the C4 witness: a SoftDevice ending at `0x253C8`,
whose end rounds up to `0x26000` with page size `0x1000`. -/
def relabelWitnessTarget : List Region :=
  [⟨RegionName.SOFTDEVICE, 0x1000, 0x243C8, RegionColor.SOFTDEVICE⟩]

theorem relabelApp_target_softdevice_witness :
    ∃ i, relabelWitnessFile.findIdx?
        (fun x => x == (⟨RegionName.NONE, 0x26000, 0x1000, RegionColor.NONE⟩ : Region)) = some i ∧
      relabelAppAfterSoftDevice relabelWitnessFile relabelWitnessTarget 0x1000 =
        relabelWitnessFile.set i
          ⟨RegionName.APPLICATION, 0x26000, 0x1000, RegionColor.APPLICATION⟩ :=
  relabelApp_target_softdevice relabelWitnessFile relabelWitnessTarget 0x1000
    ⟨RegionName.SOFTDEVICE, 0x1000, 0x243C8, RegionColor.SOFTDEVICE⟩
    ⟨RegionName.NONE, 0x26000, 0x1000, RegionColor.NONE⟩
    (by decide) (by decide) (by decide) (by decide)

/-! ### C5: downgrading APPLICATION without a SoftDevice -/

/-- Region list with two APPLICATION regions, neither starting at the
vector-table address `0x1000`. -/
def twoAppRegions : List Region :=
  [ ⟨RegionName.APPLICATION, 0x2000, 0x1000, RegionColor.APPLICATION⟩,
    ⟨RegionName.APPLICATION, 0x3000, 0x1000, RegionColor.APPLICATION⟩ ]

/-- C5 counterexample: the claim says every APPLICATION region not starting
at `0x1000` is relabeled NONE when no SoftDevice exists on either side.
The code downgrades only the first one it finds: the APPLICATION region at
`0x3000` keeps its label. -/
theorem downgrade_leaves_second_application :
    (twoAppRegions.find? (fun r => r.name == RegionName.SOFTDEVICE) = none)
  ∧ (([] : List Region).find? (fun r => r.name == RegionName.SOFTDEVICE) = none)
  ∧ ((0x3000 : Int) ≠ softDeviceMagicStart)
  ∧ ((updateFileAppRegions twoAppRegions [] 0x1000).any
      (fun r => r.name == RegionName.APPLICATION && r.startAddress == 0x3000)) = true := by
  exact ⟨by decide, by decide, by decide, by decide⟩

/-- C5 (amended): when neither the file region list nor the target's
regions contain a SoftDevice region, the first APPLICATION region is
relabeled NONE unless its start address equals the fixed vector-table
address `0x1000`, in which case the list is unchanged; later APPLICATION
regions are not touched by this step. -/
theorem downgradeApp_first_only (fileRegions targetRegions : List Region) (app : Region)
    (hfsd : fileRegions.find? (fun r => r.name == RegionName.SOFTDEVICE) = none)
    (htsd : targetRegions.find? (fun r => r.name == RegionName.SOFTDEVICE) = none)
    (happ : fileRegions.find? (fun r => r.name == RegionName.APPLICATION) = some app) :
    (app.startAddress ≠ softDeviceMagicStart →
      ∃ i, fileRegions.findIdx? (fun r => r.name == RegionName.APPLICATION) = some i ∧
        downgradeAppWithoutSoftDevice fileRegions targetRegions =
          fileRegions.set i { app with name := RegionName.NONE, color := RegionColor.NONE })
  ∧ (app.startAddress = softDeviceMagicStart →
      downgradeAppWithoutSoftDevice fileRegions targetRegions = fileRegions) := by
  constructor
  · intro hne
    obtain ⟨i, hIdxBeq⟩ := findIdx?_beq_of_mem _ app (List.mem_of_find?_eq_some happ)
    have hIdxP : fileRegions.findIdx? (fun r => r.name == RegionName.APPLICATION) = some i := by
      rw [← find?_beq_findIdx?_eq _ _ app happ]
      exact hIdxBeq
    refine ⟨i, hIdxP, ?_⟩
    have hb : (app.startAddress != softDeviceMagicStart) = true := by
      simp [hne]
    unfold downgradeAppWithoutSoftDevice
    simp only [hfsd, htsd, happ, hb, if_true]
    rw [imIndexOf_eq_of_findIdx? _ app i hIdxBeq, imSet_ofNat]
  · intro heq
    have hb : (app.startAddress != softDeviceMagicStart) = false := by
      simp [heq]
    unfold downgradeAppWithoutSoftDevice
    simp only [hfsd, htsd, happ, hb, Bool.false_eq_true, if_false]

theorem downgradeApp_first_only_witness :
    ∃ i, twoAppRegions.findIdx? (fun r => r.name == RegionName.APPLICATION) = some i ∧
      downgradeAppWithoutSoftDevice twoAppRegions [] =
        twoAppRegions.set i ⟨RegionName.NONE, 0x2000, 0x1000, RegionColor.NONE⟩ :=
  (downgradeApp_first_only twoAppRegions []
      ⟨RegionName.APPLICATION, 0x2000, 0x1000, RegionColor.APPLICATION⟩
      (by decide) (by decide) (by decide)).1 (by decide)

/-! ### C6: application region coalescing below the bootloader -/

/-- Sorted file region list with a NONE gap below the Application start, the
Application, and a NONE gap above it. -/
def appGapRegions : List Region :=
  [ ⟨RegionName.NONE, 0x1000, 0x1000, RegionColor.NONE⟩,
    ⟨RegionName.APPLICATION, 0x3000, 0x1000, RegionColor.APPLICATION⟩,
    ⟨RegionName.NONE, 0x5000, 0x1000, RegionColor.NONE⟩ ]

/-- Target region list holding only a Bootloader at `0x70000`. -/
def appGapTargetBl : List Region :=
  [⟨RegionName.BOOTLOADER, 0x70000, 0x1000, RegionColor.BOOTLOADER⟩]

/-- C6 counterexample: the claim says only the NONE regions between the
Application's start and the Bootloader's start are folded in.  The NONE
region at `0x1000` lies below the Application start `0x3000`, yet the merge
step removes it too (its scan and removal only bound the regions above by
the Bootloader start, with no lower bound at the Application). -/
theorem mergeApp_removes_none_below_app_start :
    (appGapRegions.any
      (fun r => r.name == RegionName.NONE && r.startAddress == 0x1000)) = true
  ∧ (appGapRegions.any
      (fun r => r.name == RegionName.APPLICATION && r.startAddress == 0x3000)) = true
  ∧ ((mergeAppRegions appGapRegions appGapTargetBl).any
      (fun r => r.startAddress == 0x1000)) = false := by
  exact ⟨by decide, by decide, by decide⟩

/-- C6 (amended): with a target Bootloader region and a sorted file region
list holding an APPLICATION region and at least one NONE region below the
Bootloader's start, the merge removes every NONE region below the
Bootloader's start (whether above or below the Application's start) and
resizes the first APPLICATION region to the end address of the last such
NONE region minus the last APPLICATION region's start address. -/
theorem mergeAppRegions_folds_below_bootloader (l targetRegions : List Region)
    (bl appLast g : Region)
    (hsort : l.Pairwise (fun a b => a.startAddress + a.regionSize ≤ b.startAddress))
    (hbl : targetRegions.find? (fun r => r.name == RegionName.BOOTLOADER) = some bl)
    (happLast : (l.filter (fun r => r.name == RegionName.APPLICATION)).getLast? = some appLast)
    (hg : (l.filter (fun r =>
        r.name == RegionName.NONE && r.startAddress < bl.startAddress)).getLast? = some g) :
    ∃ app i,
      ((l.filter (fun r => !(r.name == RegionName.NONE && r.startAddress < bl.startAddress))).find?
          (fun r => r.name == RegionName.APPLICATION) = some app)
      ∧ ((l.filter (fun r => !(r.name == RegionName.NONE && r.startAddress < bl.startAddress))).findIdx?
          (fun r => r.name == RegionName.APPLICATION) = some i)
      ∧ mergeAppRegions l targetRegions =
          (l.filter (fun r => !(r.name == RegionName.NONE && r.startAddress < bl.startAddress))).set i
            { app with
                regionSize := (g.startAddress + g.regionSize) - appLast.startAddress
                color := RegionColor.APPLICATION } := by
  have hscanStart : scanAppStart l = some appLast.startAddress := by
    rw [scanAppStart_eq, happLast]
  have hscanEnd : scanChainEnd
      (fun r => r.name == RegionName.NONE && r.startAddress < bl.startAddress) l =
      some (g.startAddress + g.regionSize) := by
    rw [scanChainEnd_sorted _ l hsort, hg]
  have happMem : appLast ∈ l ∧ (appLast.name == RegionName.APPLICATION) = true := by
    have := List.mem_of_mem_getLast? happLast
    exact ⟨(List.mem_filter.mp this).1, (List.mem_filter.mp this).2⟩
  have hfindSome : ((l.filter (fun r =>
      !(r.name == RegionName.NONE && r.startAddress < bl.startAddress))).find?
        (fun r => r.name == RegionName.APPLICATION)).isSome := by
    rw [List.find?_isSome]
    refine ⟨appLast, List.mem_filter.mpr ⟨happMem.1, ?_⟩, happMem.2⟩
    have : (appLast.name == RegionName.NONE) = false := by
      rw [beq_eq_false_iff_ne]
      intro hn
      rw [hn] at happMem
      exact absurd (eq_of_beq happMem.2) (by intro h; cases h)
    simp [this]
  obtain ⟨app, happfind⟩ := Option.isSome_iff_exists.mp hfindSome
  obtain ⟨i, hIdxBeq⟩ := findIdx?_beq_of_mem _ app (List.mem_of_find?_eq_some happfind)
  have hIdxP : (l.filter (fun r =>
      !(r.name == RegionName.NONE && r.startAddress < bl.startAddress))).findIdx?
        (fun r => r.name == RegionName.APPLICATION) = some i := by
    rw [← find?_beq_findIdx?_eq _ _ app happfind]
    exact hIdxBeq
  refine ⟨app, i, happfind, hIdxP, ?_⟩
  unfold mergeAppRegions
  simp only [hbl, hscanStart, hscanEnd, removeAllWhere_eq_filter, happfind]
  rw [imIndexOf_eq_of_findIdx? _ app i hIdxBeq, imSet_ofNat]

theorem mergeAppRegions_folds_below_bootloader_witness :
    ∃ app i,
      ((appGapRegions.filter
          (fun r => !(r.name == RegionName.NONE && r.startAddress < 0x70000))).find?
          (fun r => r.name == RegionName.APPLICATION) = some app)
      ∧ ((appGapRegions.filter
          (fun r => !(r.name == RegionName.NONE && r.startAddress < 0x70000))).findIdx?
          (fun r => r.name == RegionName.APPLICATION) = some i)
      ∧ mergeAppRegions appGapRegions appGapTargetBl =
          (appGapRegions.filter
            (fun r => !(r.name == RegionName.NONE && r.startAddress < 0x70000))).set i
            { app with regionSize := 0x6000 - 0x3000, color := RegionColor.APPLICATION } :=
  mergeAppRegions_folds_below_bootloader appGapRegions appGapTargetBl
    ⟨RegionName.BOOTLOADER, 0x70000, 0x1000, RegionColor.BOOTLOADER⟩
    ⟨RegionName.APPLICATION, 0x3000, 0x1000, RegionColor.APPLICATION⟩
    ⟨RegionName.NONE, 0x5000, 0x1000, RegionColor.NONE⟩
    (by decide) (by decide) (by decide) (by decide)

end Spec2Proof
